import Mathlib

/-!
Verification of the dashmap-benchmark load generator (src/lib.rs, src/main.rs).

The embedding below translates the core of the benchmark into Lean:
the pacing arithmetic (gap_nanos, the per-thread batch split), the pacer
worker loop, the two map backends behind the Map trait (DashMap modelled
as a sharded list of association lists, RwLock of HashMap modelled as a
single association list), the Init driver's progress-boundary arithmetic
and inner-map population, and the contention driver's key generation and
focus/join policy.

Machine integers are modelled as Nat; where the Rust code can overflow or
panic this is made explicit (u128 wrap-around in the pacer uses an
explicit modulus, the Rust remainder operator with a zero divisor is an
Except error, the f64 to u64 cast saturates).
-/

namespace DashmapBenchmark

/-- Modulus of u128 arithmetic. -/
def U128_MOD : Nat := 2 ^ 128

/-- Largest u64 value, the saturation bound of Rust casts into u64. -/
def U64_MAX : Nat := 2 ^ 64 - 1

/-- Embedding of gap_nanos (src/lib.rs lines 161-167):
if rate_per_second is 0 the result is absent, otherwise it is
threads * 1_000_000_000 / rate_per_second in u128 arithmetic.
The u128 product of a u64 thread count and 1e9 is below 2^128, so plain
Nat arithmetic is exact here. -/
def gap_nanos (threads rate_per_second : Nat) : Option Nat :=
  if rate_per_second = 0 then none
  else some (threads * 1000000000 / rate_per_second)

/-- Embedding of the per-thread bounded batch size of the contention
driver (src/lib.rs lines 100 and 121): each writer thread runs
writes_per_second / threads_each operations per batch, each reader thread
reads_per_second / threads_each, with u64 integer division. -/
def perThreadBatchOps (rate threads : Nat) : Nat := rate / threads

/-- Total operations of one kind across one bounded pass: threads_each
worker threads are spawned (src/lib.rs line 92) and each performs
perThreadBatchOps operations. -/
def totalBatchOps (threads rate : Nat) : Nat := threads * perThreadBatchOps rate threads

/-- Embedding of one evaluation of the progress-boundary expression
i % (entries / 100) in the Init driver (src/lib.rs line 43). Rust's
remainder operator panics when the divisor is zero, which happens exactly
when entries / 100 = 0, i.e. when 0 < entries < 100 reaches the loop
body. The panic is modelled as an Except error. -/
def progressBoundaryCheck (entries i : Nat) : Except String Bool :=
  if entries / 100 = 0 then
    Except.error "attempt to calculate the remainder with a divisor of zero"
  else
    Except.ok (decide (i % (entries / 100) = 0))

/-- Embedding of the progress-reporting arm of the Init driver loop
(src/lib.rs lines 35-52): for each i in 0..entries the loop body
evaluates i % (entries / 100). Returns ok if every evaluation succeeds,
and the first division-by-zero error otherwise. With entries = 0 the
loop body never runs. -/
def initLoopProgressChecks (entries : Nat) : Except String Unit :=
  (List.range entries).foldlM
    (fun _ i => (progressBoundaryCheck entries i).map (fun _ => ())) ()

end DashmapBenchmark

namespace DashmapBenchmark

/-- Claim C2: for every threads and every rate greater than 0,
gap_nanos threads rate is some g with g = threads * 1e9 / rate under
integer division, and gap_nanos threads 0 is none. -/
theorem gap_nanos_spec (threads rate : Nat) :
    (0 < rate → gap_nanos threads rate = some (threads * 1000000000 / rate)) ∧
    gap_nanos threads 0 = none := by
  constructor
  · intro hrate
    unfold gap_nanos
    rw [if_neg (Nat.pos_iff_ne_zero.mp hrate)]
  · rfl

/-- Witness for gap_nanos_spec at threads = 8, rate = 1000:
the gap is 8 * 1e9 / 1000 = 8_000_000 nanoseconds. -/
theorem gap_nanos_spec_witness :
    gap_nanos 8 1000 = some 8000000 ∧ gap_nanos 8 0 = none := by
  refine ⟨?_, (gap_nanos_spec 8 1000).2⟩
  have h := (gap_nanos_spec 8 1000).1 (by decide)
  simpa using h

end DashmapBenchmark

namespace DashmapBenchmark

/-- Claim C1 (divergence witness): the Init driver performs a division by
zero instead of defending against it. At entries = 50 the first loop
iteration evaluates 0 % (50 / 100) = 0 % 0, which panics in Rust; the
embedding returns the corresponding error. The guard the spec requires
does not exist in the code. -/
theorem init_progress_div_by_zero_at_50 :
    initLoopProgressChecks 50 =
      Except.error "attempt to calculate the remainder with a divisor of zero" := by
  rfl

/-- Claim C8: each thread's bounded batch performs exactly
rate / threads operations, so the total of one bounded pass is
threads * (rate / threads), and exactly the remainder rate % threads
operations of the requested rate are dropped, not redistributed. -/
theorem batch_split_spec (rate threads : Nat) :
    perThreadBatchOps rate threads = rate / threads ∧
    totalBatchOps threads rate = threads * (rate / threads) ∧
    totalBatchOps threads rate + rate % threads = rate := by
  refine ⟨rfl, rfl, ?_⟩
  exact Nat.div_add_mod rate threads

/-- Claim C10: when the requested per-kind rate is positive but below
the thread count, integer division makes every thread's bounded batch
empty, so one bounded pass performs zero operations of that kind. -/
theorem batch_empty_when_rate_below_threads (rate threads : Nat)
    (h1 : 0 < rate) (h2 : rate < threads) :
    perThreadBatchOps rate threads = 0 ∧ totalBatchOps threads rate = 0 := by
  have hz : perThreadBatchOps rate threads = 0 := Nat.div_eq_of_lt h2
  exact ⟨hz, by simp [totalBatchOps, hz]⟩

/-- Witness for batch_empty_when_rate_below_threads: a requested rate of
3 operations per second on 8 threads yields 0 operations per thread and
0 operations in total. -/
theorem batch_empty_when_rate_below_threads_witness :
    perThreadBatchOps 3 8 = 0 ∧ totalBatchOps 8 3 = 0 :=
  batch_empty_when_rate_below_threads 3 8 (by decide) (by decide)

end DashmapBenchmark

namespace DashmapBenchmark

/-- Embedding of one pacer iteration (src/lib.rs lines 101-106 and
123-131): the worker observes the current time now, sleeps when
now < next, performs the operation, and then advances next by the
constant gap in u128 arithmetic. The observed time and the sleep have no
effect on the new value of next. -/
def pacerStep (gap next _now : Nat) : Nat := (next + gap) % U128_MOD

/-- Value of next_fire_time after a worker thread processes the list of
observed clock readings nows, one scheduled operation per reading,
starting from the thread-start time init (src/lib.rs lines 98 and 119). -/
def pacerNextAfter (gap init : Nat) (nows : List Nat) : Nat :=
  nows.foldl (fun next now => pacerStep gap next now) init

/-- Claim C7: in each pacer worker loop, next_fire_time starts at the
thread-start clock reading init and advances by exactly the constant gap
after each operation, so after k scheduled operations it equals
init + k * gap — whatever clock readings (and hence sleep or operation
durations) the loop observed. The hypothesis rules out u128 wrap-around,
which real timestamps and gaps never approach. -/
theorem pacer_no_drift (gap init : Nat) (nows : List Nat)
    (h : init + nows.length * gap < U128_MOD) :
    pacerNextAfter gap init nows = init + nows.length * gap := by
  induction nows generalizing init with
  | nil => simp [pacerNextAfter]
  | cons now rest ih =>
      have hstep : init + gap + rest.length * gap < U128_MOD := by
        have : init + (rest.length + 1) * gap = init + gap + rest.length * gap := by ring
        simpa [List.length_cons, this] using h
      have hlt : init + gap < U128_MOD :=
        lt_of_le_of_lt (Nat.le_add_right _ _) hstep
      have hrest := ih (init + gap) hstep
      calc pacerNextAfter gap init (now :: rest)
          = pacerNextAfter gap ((init + gap) % U128_MOD) rest := rfl
        _ = pacerNextAfter gap (init + gap) rest := by rw [Nat.mod_eq_of_lt hlt]
        _ = init + gap + rest.length * gap := hrest
        _ = init + (now :: rest).length * gap := by simp [List.length_cons]; ring

/-- Witness for pacer_no_drift: a worker starting at time 1000 with a
gap of 50 that observes the clock readings 990, 1060, 2000 (early, late
on time, far behind schedule) has next_fire_time 1000 + 3 * 50 = 1150
after its three operations. -/
theorem pacer_no_drift_witness :
    pacerNextAfter 50 1000 [990, 1060, 2000] = 1150 := by
  have h := pacer_no_drift 50 1000 [990, 1060, 2000] (by decide)
  simpa using h

end DashmapBenchmark

namespace DashmapBenchmark

/-- Embedding of ContentionFocus (src/lib.rs lines 63-67). -/
inductive ContentionFocus
  | Read
  | Write
deriving DecidableEq

/-- Exit condition of a writer sub-task's outer loop (src/lib.rs lines
108-110): after each bounded batch the writer breaks out of the loop
unless focus = Some(Read). -/
def writerLoopBreaks (focus : Option ContentionFocus) : Bool :=
  decide (focus ≠ some ContentionFocus.Read)

/-- Exit condition of a reader sub-task's outer loop (src/lib.rs lines
133-135): after each bounded batch the reader breaks out of the loop
unless focus = Some(Write). -/
def readerLoopBreaks (focus : Option ContentionFocus) : Bool :=
  decide (focus ≠ some ContentionFocus.Write)

/-- Fuel-bounded embedding of a sub-task's outer loop (src/lib.rs lines
99-111 and 120-136): run one bounded batch, break if brk holds, repeat
otherwise. Returns the number of bounded batches run when the loop
exits on its own, and none when the fuel runs out before it exits. -/
def subTaskBatches (brk : Bool) : Nat → Option Nat
  | 0 => none
  | fuel + 1 => if brk then some 1 else (subTaskBatches brk fuel).map (· + 1)

/-- Condition under which writer sub-tasks are spawned at all
(src/lib.rs line 94): the write gap must be present, i.e. the write rate
must be positive. -/
def writerSpawned (threads writes_per_second : Nat) : Bool :=
  (gap_nanos threads writes_per_second).isSome

/-- Condition under which reader sub-tasks are spawned at all
(src/lib.rs line 115). -/
def readerSpawned (threads reads_per_second : Nat) : Bool :=
  (gap_nanos threads reads_per_second).isSome

/-- Join policy of the contention driver (src/lib.rs lines 153-158): the
writer supervisor is joined unless focus = Some(Read), and the reader
supervisor is joined unless focus = Some(Write). -/
def awaitsWriterSupervisor (focus : Option ContentionFocus) : Bool :=
  decide (focus ≠ some ContentionFocus.Read)

/-- Reader half of the join policy (src/lib.rs lines 156-158). -/
def awaitsReaderSupervisor (focus : Option ContentionFocus) : Bool :=
  decide (focus ≠ some ContentionFocus.Write)

/-- Helper: a sub-task whose break condition is false never exits its
outer loop, whatever fuel it is given. -/
theorem subTaskBatches_no_break (fuel : Nat) :
    subTaskBatches false fuel = none := by
  induction fuel with
  | zero => rfl
  | succ n ih => simp [subTaskBatches, ih]

/-- Claim C3: with both rates positive, both sub-task kinds are spawned;
under focus = Read every writer sub-task loops its bounded batch forever
(no fuel makes it exit) while every reader sub-task exits after exactly
one bounded batch, and the driver awaits only the reader supervisor;
under focus = Write the symmetric policy holds. -/
theorem focus_policy (threads writes_per_second reads_per_second : Nat)
    (hw : 0 < writes_per_second) (hr : 0 < reads_per_second) :
    writerSpawned threads writes_per_second = true ∧
    readerSpawned threads reads_per_second = true ∧
    (∀ fuel, subTaskBatches (writerLoopBreaks (some ContentionFocus.Read)) fuel = none) ∧
    (∀ fuel, subTaskBatches (readerLoopBreaks (some ContentionFocus.Read)) (fuel + 1) = some 1) ∧
    awaitsReaderSupervisor (some ContentionFocus.Read) = true ∧
    awaitsWriterSupervisor (some ContentionFocus.Read) = false ∧
    (∀ fuel, subTaskBatches (readerLoopBreaks (some ContentionFocus.Write)) fuel = none) ∧
    (∀ fuel, subTaskBatches (writerLoopBreaks (some ContentionFocus.Write)) (fuel + 1) = some 1) ∧
    awaitsWriterSupervisor (some ContentionFocus.Write) = true ∧
    awaitsReaderSupervisor (some ContentionFocus.Write) = false := by
  refine ⟨?_, ?_, ?_, ?_, rfl, rfl, ?_, ?_, rfl, rfl⟩
  · simp [writerSpawned, gap_nanos, Nat.pos_iff_ne_zero.mp hw]
  · simp [readerSpawned, gap_nanos, Nat.pos_iff_ne_zero.mp hr]
  · intro fuel
    simpa [writerLoopBreaks] using subTaskBatches_no_break fuel
  · intro fuel
    rfl
  · intro fuel
    simpa [readerLoopBreaks] using subTaskBatches_no_break fuel
  · intro fuel
    rfl

/-- Witness for focus_policy at threads = 4 and both rates 1000, with
the infinite-loop clauses sampled at fuel 3. -/
theorem focus_policy_witness :
    writerSpawned 4 1000 = true ∧
    subTaskBatches (writerLoopBreaks (some ContentionFocus.Read)) 3 = none ∧
    subTaskBatches (readerLoopBreaks (some ContentionFocus.Read)) 3 = some 1 ∧
    awaitsReaderSupervisor (some ContentionFocus.Read) = true ∧
    awaitsWriterSupervisor (some ContentionFocus.Read) = false ∧
    subTaskBatches (readerLoopBreaks (some ContentionFocus.Write)) 3 = none ∧
    subTaskBatches (writerLoopBreaks (some ContentionFocus.Write)) 3 = some 1 := by
  have h := focus_policy 4 1000 1000 (by decide) (by decide)
  exact ⟨h.1, h.2.2.1 3, h.2.2.2.1 2, h.2.2.2.2.1, h.2.2.2.2.2.1,
    h.2.2.2.2.2.2.1 3, h.2.2.2.2.2.2.2.1 2⟩

end DashmapBenchmark

namespace DashmapBenchmark

/-- Embedding of std HashMap entries (and of one DashMap shard) as an
association list without duplicate keys. -/
def HmEntries (K V : Type) : Type := List (K × V)

/-- Embedding of HashMap insert (src/lib.rs lines 190-192): replace the
value in place when the key is present, append the pair otherwise. -/
def hmInsert {K V : Type} [DecidableEq K] : List (K × V) → K → V → List (K × V)
  | [], k, v => [(k, v)]
  | (k', v') :: rest, k, v =>
    if k = k' then (k, v) :: rest else (k', v') :: hmInsert rest k v

/-- Embedding of HashMap get (src/lib.rs lines 194-196): the value
stored under the key, if any. -/
def hmGet {K V : Type} [DecidableEq K] : List (K × V) → K → Option V
  | [], _ => none
  | (k', v') :: rest, k => if k = k' then some v' else hmGet rest k

/-- Embedding of the keys enumeration (src/lib.rs lines 198-200): the
keys of all entries, cloned into a fresh vector. -/
def hmKeys {K V : Type} (l : List (K × V)) : List K := l.map Prod.fst

theorem hmGet_hmInsert_self {K V : Type} [DecidableEq K]
    (l : List (K × V)) (k : K) (v : V) : hmGet (hmInsert l k v) k = some v := by
  induction l with
  | nil => simp [hmInsert, hmGet]
  | cons p rest ih =>
      obtain ⟨k', v'⟩ := p
      by_cases hk : k = k'
      · simp [hmInsert, hmGet, hk]
      · simp [hmInsert, hmGet, hk, ih]

theorem hmKeys_hmInsert {K V : Type} [DecidableEq K]
    (l : List (K × V)) (k : K) (v : V) :
    hmKeys (hmInsert l k v) =
      if k ∈ hmKeys l then hmKeys l else hmKeys l ++ [k] := by
  induction l with
  | nil => simp [hmInsert, hmKeys]
  | cons p rest ih =>
      obtain ⟨k', v'⟩ := p
      by_cases hk : k = k'
      · simp [hmInsert, hmKeys, hk]
      · have ih' : List.map Prod.fst (hmInsert rest k v) =
            if k ∈ List.map Prod.fst rest then List.map Prod.fst rest
            else List.map Prod.fst rest ++ [k] := ih
        simp only [hmInsert, if_neg hk, hmKeys, List.map_cons]
        rw [ih']
        by_cases hmem : k ∈ List.map Prod.fst rest
        · rw [if_pos hmem, if_pos (List.mem_cons_of_mem _ hmem)]
        · rw [if_neg hmem, if_neg (by simp [List.mem_cons, hk, hmem]),
            List.cons_append]

theorem mem_hmKeys_iff_hmGet {K V : Type} [DecidableEq K]
    (l : List (K × V)) (k : K) : k ∈ hmKeys l ↔ hmGet l k ≠ none := by
  induction l with
  | nil => simp [hmKeys, hmGet]
  | cons p rest ih =>
      obtain ⟨k', v'⟩ := p
      by_cases hk : k = k'
      · simp [hmKeys, hmGet, hk]
      · simpa [hmKeys, hmGet, hk] using ih

theorem hmKeys_nodup_hmInsert {K V : Type} [DecidableEq K]
    (l : List (K × V)) (k : K) (v : V) (h : (hmKeys l).Nodup) :
    (hmKeys (hmInsert l k v)).Nodup := by
  rw [hmKeys_hmInsert]
  by_cases hmem : k ∈ hmKeys l
  · simpa [hmem] using h
  · simpa [hmem] using (List.nodup_append.mpr ⟨h, List.nodup_singleton k, by
      simpa [List.disjoint_singleton] using hmem⟩)

end DashmapBenchmark

namespace DashmapBenchmark

/-- Embedding of DashMap (src/lib.rs lines 14-16, 175-187): a fixed
number of shards, each an association list, with a deterministic
hash-based shard choice. The shard of a key is its hash reduced modulo
the shard count; the hash function is an arbitrary parameter of the
model. -/
structure DashMapM (K V : Type) where
  hash : K → Nat
  shards : List (List (K × V))

/-- Shard index a key is routed to. -/
def DashMapM.shardIdx {K V : Type} (m : DashMapM K V) (k : K) : Nat :=
  m.hash k % m.shards.length

/-- The shard holding a key. -/
def DashMapM.shardOf {K V : Type} (m : DashMapM K V) (k : K) : List (K × V) :=
  m.shards.getD (m.shardIdx k) []

/-- Embedding of DashMap insert (src/lib.rs lines 176-178): insert into
the key's shard, replacing the value of an existing key. -/
def DashMapM.insert {K V : Type} [DecidableEq K]
    (m : DashMapM K V) (k : K) (v : V) : DashMapM K V :=
  { m with shards := m.shards.set (m.shardIdx k) (hmInsert (m.shardOf k) k v) }

/-- Embedding of DashMap get (src/lib.rs lines 180-182): look the key up
in its shard. -/
def DashMapM.get {K V : Type} [DecidableEq K]
    (m : DashMapM K V) (k : K) : Option V :=
  hmGet (m.shardOf k) k

/-- Embedding of the DashMap keys enumeration (src/lib.rs lines
184-186): iterate over all shards and clone every key into a fresh
vector. -/
def DashMapM.keys {K V : Type} (m : DashMapM K V) : List K :=
  (m.shards.map hmKeys).flatten

/-- Fresh DashMap with nshards empty shards (src/lib.rs lines 14-16). -/
def DashMapM.empty (K V : Type) (hash : K → Nat) (nshards : Nat) : DashMapM K V :=
  ⟨hash, List.replicate nshards []⟩

theorem DashMapM.length_shards_insert {K V : Type} [DecidableEq K]
    (m : DashMapM K V) (k : K) (v : V) :
    (m.insert k v).shards.length = m.shards.length := by
  simp [DashMapM.insert]

theorem DashMapM.hash_insert {K V : Type} [DecidableEq K]
    (m : DashMapM K V) (k : K) (v : V) : (m.insert k v).hash = m.hash := rfl

theorem DashMapM.shardIdx_insert {K V : Type} [DecidableEq K]
    (m : DashMapM K V) (k k' : K) (v : V) :
    (m.insert k v).shardIdx k' = m.shardIdx k' := by
  simp [DashMapM.shardIdx, DashMapM.insert]

theorem DashMapM.shardOf_insert_self {K V : Type} [DecidableEq K]
    (m : DashMapM K V) (k : K) (v : V) (h : 0 < m.shards.length) :
    (m.insert k v).shardOf k = hmInsert (m.shardOf k) k v := by
  have hidx : m.shardIdx k < m.shards.length := Nat.mod_lt _ h
  have hlen : m.shardIdx k < (m.insert k v).shards.length := by
    rw [DashMapM.length_shards_insert]; exact hidx
  unfold DashMapM.shardOf
  rw [DashMapM.shardIdx_insert]
  show (m.shards.set (m.shardIdx k) (hmInsert (m.shardOf k) k v)).getD (m.shardIdx k) [] = _
  rw [List.getD_eq_getElem _ _ (by simpa using hidx)]
  exact List.getElem_set_self _

theorem DashMapM.get_insert_self {K V : Type} [DecidableEq K]
    (m : DashMapM K V) (k : K) (v : V) (h : 0 < m.shards.length) :
    (m.insert k v).get k = some v := by
  unfold DashMapM.get
  rw [DashMapM.shardOf_insert_self m k v h]
  exact hmGet_hmInsert_self _ _ _

end DashmapBenchmark

namespace DashmapBenchmark

theorem list_set_getElem_self {A : Type} (l : List A) (i : Nat) (h : i < l.length) :
    l.set i (l.get ⟨i, h⟩) = l := by
  apply List.ext_getElem
  · simp
  · intro j h1 h2
    rcases eq_or_ne j i with rfl | hne
    · simp [List.getElem_set_self]
    · simp [List.getElem_set_ne (Ne.symm hne)]

theorem hmKeys_reinsert {K V : Type} [DecidableEq K]
    (l : List (K × V)) (k : K) (v v' : V) :
    hmKeys (hmInsert (hmInsert l k v) k v') = hmKeys (hmInsert l k v) := by
  have hkmem : k ∈ hmKeys (hmInsert l k v) := by
    rw [mem_hmKeys_iff_hmGet, hmGet_hmInsert_self]
    simp
  rw [hmKeys_hmInsert, if_pos hkmem]

theorem DashMapM.keys_reinsert {K V : Type} [DecidableEq K]
    (m : DashMapM K V) (k : K) (v v' : V) (h : 0 < m.shards.length) :
    ((m.insert k v).insert k v').keys = (m.insert k v).keys := by
  have hlen1 : (m.insert k v).shards.length = m.shards.length :=
    DashMapM.length_shards_insert m k v
  have h1 : 0 < (m.insert k v).shards.length := by rw [hlen1]; exact h
  have hidx : (m.insert k v).shardIdx k < (m.insert k v).shards.length :=
    Nat.mod_lt _ h1
  have hkmem : k ∈ hmKeys ((m.insert k v).shardOf k) := by
    rw [mem_hmKeys_iff_hmGet]
    have hg : (m.insert k v).get k = some v := DashMapM.get_insert_self m k v h
    simp only [DashMapM.get] at hg
    simp [hg]
  have hkeq : hmKeys (hmInsert ((m.insert k v).shardOf k) k v') =
      hmKeys ((m.insert k v).shardOf k) := by
    rw [hmKeys_hmInsert, if_pos hkmem]
  unfold DashMapM.keys
  congr 1
  show ((m.insert k v).shards.set ((m.insert k v).shardIdx k)
      (hmInsert ((m.insert k v).shardOf k) k v')).map hmKeys =
    (m.insert k v).shards.map hmKeys
  rw [List.map_set, hkeq]
  have hof : hmKeys ((m.insert k v).shardOf k) =
      ((m.insert k v).shards.map hmKeys).get
        ⟨(m.insert k v).shardIdx k, by simpa using hidx⟩ := by
    unfold DashMapM.shardOf
    rw [List.getD_eq_getElem _ _ hidx]
    simp [List.getElem_map]
  rw [hof, list_set_getElem_self]

/-- Claim C5: for both backends, in single-threaded use: after
insert(k, v), get(k) yields v; re-inserting k with v' makes get(k)
yield v' — the value is replaced — and the key list (hence the
cardinality of keys()) is left unchanged. The DashMap half assumes at
least one shard, which its constructor guarantees. -/
theorem insert_get_replace_spec {K V : Type} [DecidableEq K]
    (l : List (K × V)) (m : DashMapM K V) (k : K) (v v' : V)
    (h : 0 < m.shards.length) :
    hmGet (hmInsert l k v) k = some v ∧
    hmGet (hmInsert (hmInsert l k v) k v') k = some v' ∧
    (hmKeys (hmInsert (hmInsert l k v) k v')).length =
      (hmKeys (hmInsert l k v)).length ∧
    (m.insert k v).get k = some v ∧
    ((m.insert k v).insert k v').get k = some v' ∧
    (((m.insert k v).insert k v').keys).length = ((m.insert k v).keys).length := by
  have h1 : 0 < (m.insert k v).shards.length := by
    rw [DashMapM.length_shards_insert]; exact h
  refine ⟨hmGet_hmInsert_self l k v, hmGet_hmInsert_self _ k v', ?_, ?_, ?_, ?_⟩
  · rw [hmKeys_reinsert]
  · exact DashMapM.get_insert_self m k v h
  · exact DashMapM.get_insert_self (m.insert k v) k v' h1
  · rw [DashMapM.keys_reinsert m k v v' h]

/-- Witness for insert_get_replace_spec: a two-shard map with hash
reduction modulo 2, key 3, values 7 then 9, alongside the single-lock
backend starting from one unrelated entry. -/
theorem insert_get_replace_spec_witness :
    hmGet (hmInsert (hmInsert [(1, 5)] 3 7) 3 9) 3 = some 9 ∧
    ((DashMapM.empty Nat Nat (fun k => k) 2).insert 3 7).get 3 = some 7 ∧
    (((DashMapM.empty Nat Nat (fun k => k) 2).insert 3 7).insert 3 9).get 3 = some 9 := by
  have h := insert_get_replace_spec [(1, 5)] (DashMapM.empty Nat Nat (fun k => k) 2)
    3 7 9 (by simp [DashMapM.empty])
  exact ⟨h.2.1, h.2.2.2.1, h.2.2.2.2.1⟩

end DashmapBenchmark

namespace DashmapBenchmark

/-- Map state of the single-lock backend after a single-threaded
sequence of inserts starting from an empty HashMap. -/
def hmOfOps {K V : Type} [DecidableEq K] (ops : List (K × V)) : List (K × V) :=
  ops.foldl (fun m p => hmInsert m p.1 p.2) []

/-- Map state of the DashMap backend after a single-threaded sequence of
inserts starting from a fresh map with nshards shards. -/
def DashMapM.ofOps {K V : Type} [DecidableEq K]
    (hash : K → Nat) (nshards : Nat) (ops : List (K × V)) : DashMapM K V :=
  ops.foldl (fun m p => m.insert p.1 p.2) (DashMapM.empty K V hash nshards)

theorem hmKeys_nodup_foldl {K V : Type} [DecidableEq K]
    (ops : List (K × V)) (init : List (K × V)) (h : (hmKeys init).Nodup) :
    (hmKeys (ops.foldl (fun m p => hmInsert m p.1 p.2) init)).Nodup := by
  induction ops generalizing init with
  | nil => simpa using h
  | cons p rest ih =>
      exact ih (hmInsert init p.1 p.2) (hmKeys_nodup_hmInsert init p.1 p.2 h)

/-- Well-formedness of the sharded map: every shard's key list has no
duplicates, and every key stored in a shard hashes to that shard. Both
are established by construction and preserved by insert. -/
def DashMapM.WF {K V : Type} (m : DashMapM K V) : Prop :=
  ∀ i (h : i < m.shards.length),
    (hmKeys (m.shards.get ⟨i, h⟩)).Nodup ∧
    ∀ k ∈ hmKeys (m.shards.get ⟨i, h⟩), m.hash k % m.shards.length = i

theorem DashMapM.WF_empty {K V : Type} (hash : K → Nat) (n : Nat) :
    (DashMapM.empty K V hash n).WF := by
  intro i h
  simp only [DashMapM.empty] at h ⊢
  simp [hmKeys]

theorem DashMapM.WF_insert {K V : Type} [DecidableEq K]
    (m : DashMapM K V) (k : K) (v : V) (hwf : m.WF) : (m.insert k v).WF := by
  rcases Nat.eq_zero_or_pos m.shards.length with hlen | hlen
  · intro i h
    rw [DashMapM.length_shards_insert] at h
    omega
  · have hidx : m.shardIdx k < m.shards.length := Nat.mod_lt _ hlen
    have hsh : m.shardOf k = m.shards.get ⟨m.shardIdx k, hidx⟩ := by
      unfold DashMapM.shardOf
      rw [List.getD_eq_getElem _ _ hidx]
      rfl
    intro i hI
    have h : i < m.shards.length := by
      rw [DashMapM.length_shards_insert] at hI; exact hI
    rcases eq_or_ne i (m.shardIdx k) with rfl | hne
    · have hget : (m.insert k v).shards.get ⟨m.shardIdx k, hI⟩ =
          hmInsert (m.shardOf k) k v := by
        show (m.shards.set (m.shardIdx k) (hmInsert (m.shardOf k) k v)).get _ = _
        simp [List.get_eq_getElem, List.getElem_set_self]
      rw [hget]
      have hnd : (hmKeys (m.shardOf k)).Nodup := by
        rw [hsh]; exact (hwf _ hidx).1
      refine ⟨hmKeys_nodup_hmInsert _ k v hnd, ?_⟩
      intro k' hk'
      rw [hmKeys_hmInsert] at hk'
      rw [DashMapM.hash_insert, DashMapM.length_shards_insert]
      by_cases hmem : k ∈ hmKeys (m.shardOf k)
      · rw [if_pos hmem] at hk'
        exact (hwf _ hidx).2 k' (by rwa [hsh] at hk')
      · rw [if_neg hmem] at hk'
        rcases List.mem_append.mp hk' with hin | hin
        · exact (hwf _ hidx).2 k' (by rwa [hsh] at hin)
        · have hkk : k' = k := by simpa using hin
          subst hkk
          rfl
    · have hget : (m.insert k v).shards.get ⟨i, hI⟩ = m.shards.get ⟨i, h⟩ := by
        show (m.shards.set (m.shardIdx k) (hmInsert (m.shardOf k) k v)).get _ = _
        simp [List.get_eq_getElem, List.getElem_set_ne (Ne.symm hne)]
      rw [hget, DashMapM.hash_insert, DashMapM.length_shards_insert]
      exact hwf i h

theorem DashMapM.WF_ofOps {K V : Type} [DecidableEq K]
    (hash : K → Nat) (n : Nat) (ops : List (K × V)) :
    (DashMapM.ofOps hash n ops).WF := by
  suffices hgen : ∀ (init : DashMapM K V), init.WF →
      (ops.foldl (fun m p => m.insert p.1 p.2) init).WF by
    exact hgen _ (DashMapM.WF_empty hash n)
  induction ops with
  | nil => intro init h; simpa using h
  | cons p rest ih =>
      intro init h
      exact ih _ (DashMapM.WF_insert init p.1 p.2 h)

end DashmapBenchmark

namespace DashmapBenchmark

theorem DashMapM.keys_nodup_of_WF {K V : Type} (m : DashMapM K V) (hwf : m.WF) :
    m.keys.Nodup := by
  unfold DashMapM.keys
  rw [List.nodup_flatten]
  constructor
  · intro l hl
    rcases List.mem_map.mp hl with ⟨s, hs, rfl⟩
    rcases List.mem_iff_get.mp hs with ⟨⟨i, hi⟩, rfl⟩
    exact (hwf i hi).1
  · rw [List.pairwise_iff_getElem]
    intro i j hi hj hij
    intro a hai haj
    have hi' : i < m.shards.length := by simpa using hi
    have hj' : j < m.shards.length := by simpa using hj
    have hai' : a ∈ hmKeys (m.shards.get ⟨i, hi'⟩) := by
      rw [List.get_eq_getElem]
      simpa [List.getElem_map] using hai
    have haj' : a ∈ hmKeys (m.shards.get ⟨j, hj'⟩) := by
      rw [List.get_eq_getElem]
      simpa [List.getElem_map] using haj
    have h1 := (hwf i hi').2 a hai'
    have h2 := (hwf j hj').2 a haj'
    omega

theorem DashMapM.mem_keys_iff_get {K V : Type} [DecidableEq K]
    (m : DashMapM K V) (hwf : m.WF) (k : K) :
    k ∈ m.keys ↔ m.get k ≠ none := by
  rcases Nat.eq_zero_or_pos m.shards.length with hlen | hlen
  · have hnil : m.shards = [] := List.length_eq_zero.mp hlen
    unfold DashMapM.keys DashMapM.get DashMapM.shardOf
    rw [hnil]
    simp [hmGet]
  · constructor
    · intro hk
      unfold DashMapM.keys at hk
      rcases List.mem_flatten.mp hk with ⟨l, hl, hkl⟩
      rcases List.mem_map.mp hl with ⟨s, hs, rfl⟩
      rcases List.mem_iff_get.mp hs with ⟨⟨i, hi⟩, rfl⟩
      have hroute := (hwf i hi).2 k hkl
      unfold DashMapM.get DashMapM.shardOf DashMapM.shardIdx
      rw [← (mem_hmKeys_iff_hmGet _ k), hroute, List.getD_eq_getElem _ _ hi]
      simpa [List.get_eq_getElem] using hkl
    · intro hk
      unfold DashMapM.get at hk
      have hkk : k ∈ hmKeys (m.shardOf k) := (mem_hmKeys_iff_hmGet _ k).mpr hk
      have hidx : m.shardIdx k < m.shards.length := Nat.mod_lt _ hlen
      unfold DashMapM.keys
      rw [List.mem_flatten]
      refine ⟨hmKeys (m.shardOf k), ?_, hkk⟩
      apply List.mem_map.mpr
      refine ⟨m.shardOf k, ?_, rfl⟩
      have hsh : m.shardOf k = m.shards.get ⟨m.shardIdx k, hidx⟩ := by
        unfold DashMapM.shardOf
        rw [List.getD_eq_getElem _ _ hidx]
        rfl
      rw [hsh, List.get_eq_getElem]
      exact List.getElem_mem _

/-- Claim C6: for both backends and every single-threaded sequence of
inserts from an empty map, the keys enumeration returns exactly the set
of keys present at the moment of the call — a key is in the returned
list exactly when get finds it — with no duplicates and no omissions.
The enumeration clones every key into a fresh list (src/lib.rs lines
184-186 and 198-200); in this value-semantics model the returned list
is by construction a materialized copy that later map mutations cannot
change. -/
theorem keys_exact_spec {K V : Type} [DecidableEq K]
    (ops : List (K × V)) (hash : K → Nat) (n : Nat) :
    (hmKeys (hmOfOps ops)).Nodup ∧
    (∀ k, k ∈ hmKeys (hmOfOps ops) ↔ hmGet (hmOfOps ops) k ≠ none) ∧
    ((DashMapM.ofOps hash n ops).keys).Nodup ∧
    (∀ k, k ∈ (DashMapM.ofOps hash n ops).keys ↔
      (DashMapM.ofOps hash n ops).get k ≠ none) :=
  ⟨hmKeys_nodup_foldl ops [] (by simp [hmKeys]),
   fun k => mem_hmKeys_iff_hmGet _ k,
   DashMapM.keys_nodup_of_WF _ (DashMapM.WF_ofOps hash n ops),
   fun k => DashMapM.mem_keys_iff_get _ (DashMapM.WF_ofOps hash n ops) k⟩

/-- Witness for keys_exact_spec on the insert sequence
(1, 10), (2, 20), (1, 30) with a four-shard DashMap hashing by
identity, sampling the membership clauses at the present key 2 and the
absent key 5. -/
theorem keys_exact_spec_witness :
    (hmKeys (hmOfOps [(1, 10), (2, 20), (1, 30)])).Nodup ∧
    (2 ∈ hmKeys (hmOfOps [(1, 10), (2, 20), (1, 30)]) ↔
      hmGet (hmOfOps [(1, 10), (2, 20), (1, 30)]) 2 ≠ none) ∧
    ((DashMapM.ofOps (fun k => k) 4 [(1, 10), (2, 20), (1, 30)]).keys).Nodup ∧
    (5 ∈ (DashMapM.ofOps (fun k => k) 4 [(1, 10), (2, 20), (1, 30)]).keys ↔
      (DashMapM.ofOps (fun k => k) 4 [(1, 10), (2, 20), (1, 30)]).get 5 ≠ none) := by
  have h := keys_exact_spec [(1, 10), (2, 20), (1, 30)] (fun k => k) 4
  exact ⟨h.1, h.2.1 2, h.2.2.1, h.2.2.2 5⟩

end DashmapBenchmark

namespace DashmapBenchmark

/-- Embedding of rng.gen_range(0..=range) (src/lib.rs lines 88 and
105): a uniformly drawn key in the inclusive range 0..=range. The
underlying random draw r is an arbitrary natural reduced into the
range. -/
def gen_range_incl (range r : Nat) : Nat := r % (range + 1)

/-- Shared-map contents after any serialization of the contention
driver's inserts — the Phase-1 prior-writes loop (src/lib.rs lines
87-89) followed by writer operations (line 105) in any interleaving —
each inserting a drawn key with a unit value into the initially empty
map. -/
def contentionMapAfter (range : Nat) (draws : List Nat) : List (Nat × Unit) :=
  draws.foldl (fun m r => hmInsert m (gen_range_incl range r) ()) []

theorem contentionMapAfter_eq_hmOfOps (range : Nat) (draws : List Nat) :
    contentionMapAfter range draws =
      hmOfOps (draws.map (fun r => (gen_range_incl range r, ()))) := by
  unfold contentionMapAfter hmOfOps
  rw [List.foldl_map]

theorem contention_keys_le_range (range : Nat) (draws : List Nat)
    (init : List (Nat × Unit)) (hinit : ∀ k ∈ hmKeys init, k ≤ range) :
    ∀ k ∈ hmKeys (draws.foldl
      (fun m r => hmInsert m (gen_range_incl range r) ()) init), k ≤ range := by
  induction draws generalizing init with
  | nil => simpa using hinit
  | cons r rest ih =>
      apply ih
      intro k hk
      rw [hmKeys_hmInsert] at hk
      by_cases hmem : gen_range_incl range r ∈ hmKeys init
      · rw [if_pos hmem] at hk
        exact hinit k hk
      · rw [if_neg hmem] at hk
        rcases List.mem_append.mp hk with hin | hin
        · exact hinit k hin
        · have hkr : k = gen_range_incl range r := by simpa using hin
          subst hkr
          exact Nat.lt_succ_iff.mp (Nat.mod_lt _ (Nat.succ_pos range))

theorem nodup_bounded_length_le (l : List Nat) (bound : Nat)
    (hnd : l.Nodup) (hb : ∀ k ∈ l, k ≤ bound) : l.length ≤ bound + 1 := by
  have h1 : l.toFinset.card = l.length := List.toFinset_card_of_nodup hnd
  have h2 : l.toFinset ⊆ Finset.range (bound + 1) := by
    intro x hx
    rw [Finset.mem_range, Nat.lt_succ_iff]
    exact hb x (List.mem_toFinset.mp hx)
  calc l.length = l.toFinset.card := h1.symm
    _ ≤ (Finset.range (bound + 1)).card := Finset.card_le_card h2
    _ = bound + 1 := Finset.card_range _

/-- Claim C9: every key the contention driver inserts — in the Phase-1
prior-writes loop and in every writer operation — is drawn from
0..=range, and at every point during and after the run (after any
prefix, of length t, of the serialized insert sequence) the number of
distinct keys present in the shared map is at most range + 1. -/
theorem contention_key_range_spec (range : Nat) (draws : List Nat) (t : Nat) :
    (∀ r, gen_range_incl range r ≤ range) ∧
    (∀ k ∈ hmKeys (contentionMapAfter range (draws.take t)), k ≤ range) ∧
    (hmKeys (contentionMapAfter range (draws.take t))).Nodup ∧
    (hmKeys (contentionMapAfter range (draws.take t))).length ≤ range + 1 := by
  have hle : ∀ k ∈ hmKeys (contentionMapAfter range (draws.take t)), k ≤ range :=
    contention_keys_le_range range (draws.take t) [] (by simp [hmKeys])
  have hnd : (hmKeys (contentionMapAfter range (draws.take t))).Nodup := by
    rw [contentionMapAfter_eq_hmOfOps]
    exact hmKeys_nodup_foldl _ [] (by simp [hmKeys])
  exact ⟨fun r => Nat.lt_succ_iff.mp (Nat.mod_lt _ (Nat.succ_pos range)),
    hle, hnd, nodup_bounded_length_le _ range hnd hle⟩

/-- Witness for contention_key_range_spec with range = 10 and the draw
sequence 3, 25, 7, 25, 99 truncated at t = 4: the drawn key for raw
draw 25 is 25 mod 11 = 3, all stored keys are at most 10, and at most
11 distinct keys are present. -/
theorem contention_key_range_spec_witness :
    gen_range_incl 10 25 ≤ 10 ∧
    (∀ k ∈ hmKeys (contentionMapAfter 10 ([3, 25, 7, 25, 99].take 4)), k ≤ 10) ∧
    (hmKeys (contentionMapAfter 10 ([3, 25, 7, 25, 99].take 4))).length ≤ 11 := by
  have h := contention_key_range_spec 10 [3, 25, 7, 25, 99] 4
  exact ⟨h.1 25, h.2.1, h.2.2.2⟩

end DashmapBenchmark

namespace DashmapBenchmark

/-- Rust numeric cast from f64 to u64, as used in the expression
(dist.sample(rng) as u64) at src/lib.rs line 38: the as-cast saturates,
so negative samples give 0, samples above u64::MAX give u64::MAX, and
other values are truncated toward zero. The sampled floating-point
value is modelled as a rational. -/
def f64_as_u64 (x : ℚ) : Nat :=
  if x < 0 then 0 else min (Int.toNat ⌊x⌋) U64_MAX

/-- Number of placeholder insertions into one inner map of the Init
driver (src/lib.rs lines 37-41): zero when ave_inner_items = 0 (the
population branch is skipped), otherwise the normal sample cast to u64,
which bounds the loop for x in 0..count. -/
def innerInsertCount (ave_inner_items : Nat) (sample : ℚ) : Nat :=
  if ave_inner_items = 0 then 0 else f64_as_u64 sample

/-- Inner-map contents after the population loop: the keys 0..count
each inserted with a unit value into the freshly constructed inner
map. -/
def innerMapAfter (ave_inner_items : Nat) (sample : ℚ) : List (Nat × Unit) :=
  (List.range (innerInsertCount ave_inner_items sample)).foldl
    (fun m x => hmInsert m x ()) []

/-- Claim C4: in the Init driver, a negative sample from the normal
distribution results in exactly zero insertions into the inner map —
the saturating cast can never produce a negative or wrapped-around
iteration count — so the inner map stays empty and its size, a natural
number in this model as in Rust, is zero rather than negative. -/
theorem negative_sample_zero_insertions (ave_inner_items : Nat) (sample : ℚ)
    (h : sample < 0) :
    innerInsertCount ave_inner_items sample = 0 ∧
    innerMapAfter ave_inner_items sample = [] ∧
    (hmKeys (innerMapAfter ave_inner_items sample)).length = 0 := by
  have hcast : f64_as_u64 sample = 0 := by
    unfold f64_as_u64
    rw [if_pos h]
  have hcount : innerInsertCount ave_inner_items sample = 0 := by
    unfold innerInsertCount
    by_cases ha : ave_inner_items = 0
    · rw [if_pos ha]
    · rw [if_neg ha, hcast]
  refine ⟨hcount, ?_, ?_⟩ <;> simp [innerMapAfter, hcount, hmKeys]

/-- Witness for negative_sample_zero_insertions: the sample -5 drawn for
mean 10 produces zero insertions and an empty inner map. -/
theorem negative_sample_zero_insertions_witness :
    innerInsertCount 10 (-5) = 0 ∧ innerMapAfter 10 (-5) = [] := by
  have h := negative_sample_zero_insertions 10 (-5) (by norm_num)
  exact ⟨h.1, h.2.1⟩

end DashmapBenchmark
